import Mathlib

/-!
Shallow embedding of `src/piano-midi-optimizer.js` (Piano MIDI Optimizer).

JS numbers holding note times/durations are modelled as `ℚ`; MIDI pitches
and configuration values as `Int`; velocities as `Nat`.  JS's
`note.velocity || 64` idiom is modelled by `vOr64` (the only falsy `Nat`
is `0`).  Stateful array code is modelled by explicit list passing; the
`reduce`-without-initial-value idiom, which throws on an empty array, is
modelled in `Except`.
-/

namespace PianoMidi

/-- A note as it flows through the pipeline: `{midi, time, duration, velocity}`. -/
structure Note where
  midi : Int
  time : ℚ
  duration : ℚ
  velocity : Nat
deriving DecidableEq, Repr, Inhabited

/-- Track roles assigned by `analyzeMidiTracks` (string literals in the source). -/
inductive Role where
  | melody
  | bass
  | harmony
  | unknown
deriving DecidableEq, Repr

/-- A raw note of the parsed MIDI input (the external parser's view). -/
structure RawNote where
  midi : Int
  time : ℚ
  duration : ℚ
  velocity : Nat
deriving DecidableEq, Repr

/-- A raw track of the parsed MIDI input: `{name, channel, notes}`. -/
structure RawTrack where
  name : String
  channel : Nat
  notes : List RawNote
deriving DecidableEq, Repr

/-- MIDI header data copied verbatim by the emitter. -/
structure Header where
  tempos : List ℚ
  timeSignatures : List (Nat × Nat)
  keySignatures : List String
  meta : List String
  name : String
deriving DecidableEq, Repr

/-- The parsed MIDI file: header plus tracks. -/
structure RawMidi where
  header : Header
  tracks : List RawTrack
deriving DecidableEq, Repr

/-- The result of `analyzeMidiTracks` for one surviving track. -/
structure AnalyzedTrack where
  index : Nat
  name : String
  notes : List Note
  avgPitch : ℚ
  trackRole : Role
  noteCount : Nat
deriving DecidableEq, Repr

/-- Effective configuration (`defaultOptions` merged with caller options). -/
structure Config where
  maxRightHandNotes : Int
  maxLeftHandNotes : Int
  splitPoint : Int
  dynamicSplitPoint : Bool
  preserveMelody : Bool
  preserveBass : Bool
deriving DecidableEq, Repr

/-- Caller-supplied options: each field optional, missing fields fall back to
`defaultOptions` (the JS `{ ...defaultOptions, ...options }` merge). -/
structure Options where
  maxRightHandNotes : Option Int := none
  maxLeftHandNotes : Option Int := none
  splitPoint : Option Int := none
  dynamicSplitPoint : Option Bool := none
  preserveMelody : Option Bool := none
  preserveBass : Option Bool := none
deriving DecidableEq, Repr

/-- `defaultOptions` of `optimizeMidiForPiano`. -/
def defaultOptions : Config :=
  { maxRightHandNotes := 12
    maxLeftHandNotes := 10
    splitPoint := 60
    dynamicSplitPoint := true
    preserveMelody := true
    preserveBass := true }

/-- `const config = { ...defaultOptions, ...options }`. -/
def mergeConfig (o : Options) : Config :=
  { maxRightHandNotes := o.maxRightHandNotes.getD defaultOptions.maxRightHandNotes
    maxLeftHandNotes := o.maxLeftHandNotes.getD defaultOptions.maxLeftHandNotes
    splitPoint := o.splitPoint.getD defaultOptions.splitPoint
    dynamicSplitPoint := o.dynamicSplitPoint.getD defaultOptions.dynamicSplitPoint
    preserveMelody := o.preserveMelody.getD defaultOptions.preserveMelody
    preserveBass := o.preserveBass.getD defaultOptions.preserveBass }

/-- JS `v || 64` on a velocity: `0` is the only falsy `Nat`. -/
def vOr64 (v : Nat) : Nat := if v = 0 then 64 else v

/-- Role classification of `analyzeMidiTracks`:
`avgPitch > 65 → melody`, `avgPitch < 52 → bass`, otherwise `harmony`. -/
def classifyRole (avgPitch : ℚ) : Role :=
  if avgPitch > 65 then .melody
  else if avgPitch < 52 then .bass
  else .harmony

/-- The analyzed-track record built for one non-skipped track
(deep note copies with `velocity: note.velocity || 64`). -/
def analyzeTrack (idx : Nat) (t : RawTrack) : AnalyzedTrack :=
  let avgPitch : ℚ := ((t.notes.map (fun n => (n.midi : ℚ))).sum) / (t.notes.length : ℚ)
  { index := idx
    name := if t.name = "" then "Track " ++ toString idx else t.name
    notes := t.notes.map (fun n =>
      { midi := n.midi, time := n.time, duration := n.duration
        velocity := vOr64 n.velocity })
    avgPitch := avgPitch
    trackRole := classifyRole avgPitch
    noteCount := t.notes.length }

/-- `analyzeMidiTracks`: skip empty tracks and drum tracks (channel 9),
analyze the rest in order. -/
def analyzeMidiTracks (tracks : List RawTrack) : List AnalyzedTrack :=
  tracks.enum.foldl
    (fun acc it =>
      if it.2.notes.length = 0 ∨ it.2.channel = 9 then acc
      else acc ++ [analyzeTrack it.1 it.2])
    []

/-- A flattened note of `createPianoArrangement`'s `allNotes` list:
a note value tagged with its owning track's role. -/
structure CNote where
  midi : Int
  time : ℚ
  duration : ℚ
  velocity : Nat
  trackRole : Role
deriving DecidableEq, Repr

/-- The track comparator of `createPianoArrangement` (returns a signed number):
melody first, then bass, then descending note count. -/
def trackCompare (a b : AnalyzedTrack) : Int :=
  if a.trackRole = .melody ∧ b.trackRole ≠ .melody then -1
  else if a.trackRole ≠ .melody ∧ b.trackRole = .melody then 1
  else if a.trackRole = .bass ∧ b.trackRole ≠ .bass then -1
  else if a.trackRole ≠ .bass ∧ b.trackRole = .bass then 1
  else (b.noteCount : Int) - (a.noteCount : Int)

/-- `a` may precede `b` under the comparator (comparator value `≤ 0`).
The comparator is consistent (it is sign-compatible with the lexicographic
key `(rank, -noteCount)` where melody ranks 0, bass 1, others 2), so ES2019
`Array.prototype.sort` — required to be stable — produces the unique stable
sort w.r.t. this total preorder. -/
def trackPrec (a b : AnalyzedTrack) : Prop := trackCompare a b ≤ 0

instance : DecidableRel trackPrec := by
  unfold trackPrec; infer_instance

/-- `[...analyzedTracks].sort(comparator)`: the unique stable sort w.r.t.
`trackPrec`, modelled by the stable `List.insertionSort`. -/
def sortTracks (ts : List AnalyzedTrack) : List AnalyzedTrack :=
  ts.insertionSort trackPrec

/-- The record pushed onto `allNotes` for one note of a track:
`{midi, time, duration, velocity: note.velocity || 64, trackRole}`. -/
def tagNote (role : Role) (n : Note) : CNote :=
  { midi := n.midi, time := n.time, duration := n.duration
    velocity := vOr64 n.velocity, trackRole := role }

/-- Flattening loop of `createPianoArrangement`: concatenate all notes of the
sorted tracks, tagging each with its track's role and normalising velocity. -/
def collectNotes (ts : List AnalyzedTrack) : List CNote :=
  ts.foldl (fun acc t => acc ++ t.notes.map (tagNote t.trackRole)) []

/-- The per-note hand decision of the initial distributor:
`note.trackRole === 'melody' || note.midi >= config.splitPoint`. -/
def goesRight (cfg : Config) (n : CNote) : Prop :=
  n.trackRole = .melody ∨ n.midi ≥ cfg.splitPoint

instance (cfg : Config) (n : CNote) : Decidable (goesRight cfg n) := by
  unfold goesRight; infer_instance

/-- The note value pushed onto a hand list (role dropped, velocity `|| 64`). -/
def stripC (n : CNote) : Note :=
  { midi := n.midi, time := n.time, duration := n.duration
    velocity := vOr64 n.velocity }

/-- The two-hand output of the distributor and of the balancer. -/
structure Arrangement where
  rightHand : List Note
  leftHand : List Note
deriving DecidableEq, Repr

/-- One step of the initial-distribution loop: push the note onto the hand
selected by `goesRight`. -/
def assignNote (config : Config) (arr : Arrangement) (n : CNote) : Arrangement :=
  if goesRight config n then
    { arr with rightHand := arr.rightHand ++ [stripC n] }
  else
    { arr with leftHand := arr.leftHand ++ [stripC n] }

/-- `createPianoArrangement`: sort tracks by importance, flatten, then
assign each note to a hand by role/split point. -/
def createPianoArrangement (analyzedTracks : List AnalyzedTrack) (config : Config) :
    Arrangement :=
  let allNotes := collectNotes (sortTracks analyzedTracks)
  allNotes.foldl (assignNote config) { rightHand := [], leftHand := [] }

/-- A time slice of `createTimeSlices`: `{startTime, endTime, duration, notes}`. -/
structure TimeSlice where
  startTime : ℚ
  endTime : ℚ
  duration : ℚ
  notes : List Note
deriving DecidableEq, Repr

/-- A note is active in the span `[s, e]` when it fully covers it
(`note.time <= s && note.time + note.duration >= e`). -/
def activeIn (n : Note) (s e : ℚ) : Prop :=
  n.time ≤ s ∧ n.time + n.duration ≥ e

instance (n : Note) (s e : ℚ) : Decidable (activeIn n s e) := by
  unfold activeIn; infer_instance

/-- `createTimeSlices`: collect the distinct start/end timepoints, sort them
ascending, and form one slice per adjacent pair. -/
def createTimeSlices (notes : List Note) : List TimeSlice :=
  let timePoints :=
    (notes.foldl (fun acc n => acc ++ [n.time, n.time + n.duration]) []).dedup
  let sortedTimePoints := timePoints.insertionSort (· ≤ ·)
  (sortedTimePoints.zip sortedTimePoints.tail).map (fun p =>
    { startTime := p.1
      endTime := p.2
      duration := p.2 - p.1
      notes := notes.filter (fun n => decide (activeIn n p.1 p.2)) })

/-- `arr.reduce((a, b) => a.midi < b.midi ? a : b)` followed by
`arr.indexOf(result)`.  Each array cell holds a distinct object reference, so
`indexOf` returns the picked element's own position; the fold therefore
carries the index along with the note.  `none` models the `TypeError` that
`reduce` throws on an empty array. -/
def pickLow (l : List Note) : Option (Nat × Note) :=
  match l.enum with
  | [] => none
  | x :: xs => some (xs.foldl (fun a b => if a.2.midi < b.2.midi then a else b) x)

/-- `arr.reduce((a, b) => a.midi > b.midi ? a : b)` with the picked index,
as in `pickLow`. -/
def pickHigh (l : List Note) : Option (Nat × Note) :=
  match l.enum with
  | [] => none
  | x :: xs => some (xs.foldl (fun a b => if a.2.midi > b.2.midi then a else b) x)

/-- Fuel-structural body of the first rebalancing loop.  Each iteration
removes one element from `simR`, so fuel `simR.length + 1` always reaches a
`.ok` or the genuine reduce error; the fuel-exhaustion branch is unreachable
(`moveLowGo_ne_fuel`). -/
def moveLowGo : Nat → Int → List Note → List Note →
    Except String (List Note × List Note)
  | 0, _, _, _ => .error "fuel exhausted (unreachable)"
  | fuel + 1, maxR, simR, simL =>
    if (simR.length : Int) > maxR then
      match pickLow simR with
      | none => .error "Reduce of empty array with no initial value"
      | some (i, n) => moveLowGo fuel maxR (simR.eraseIdx i) (simL ++ [n])
    else
      .ok (simR, simL)

/-- First rebalancing loop:
`while (simultaneousRight.length > config.maxRightHandNotes) { ... }` —
pick the lowest note from the right subset (last one under a pitch tie),
splice it out, push it onto the left subset. -/
def moveLowLoop (maxR : Int) (simR simL : List Note) :
    Except String (List Note × List Note) :=
  moveLowGo (simR.length + 1) maxR simR simL

/-- Fuel-structural body of the second rebalancing loop (as `moveLowGo`). -/
def moveHighGo : Nat → Int → List Note → List Note →
    Except String (List Note × List Note)
  | 0, _, _, _ => .error "fuel exhausted (unreachable)"
  | fuel + 1, maxL, simR, simL =>
    if (simL.length : Int) > maxL then
      match pickHigh simL with
      | none => .error "Reduce of empty array with no initial value"
      | some (i, n) => moveHighGo fuel maxL (simR ++ [n]) (simL.eraseIdx i)
    else
      .ok (simR, simL)

/-- Second rebalancing loop:
`while (simultaneousLeft.length > config.maxLeftHandNotes) { ... }` —
pick the highest note from the left subset (last one under a pitch tie),
splice it out, push it onto the right subset. -/
def moveHighLoop (maxL : Int) (simR simL : List Note) :
    Except String (List Note × List Note) :=
  moveHighGo (simL.length + 1) maxL simR simL

/-- The merge step at the end of a slice: push each surviving note (as a fresh
copy) unless a note with the same `(time, midi)` is already recorded. -/
def dedupAdd (opt toAdd : List Note) : List Note :=
  toAdd.foldl
    (fun acc n =>
      if acc.any (fun m => m.time = n.time ∧ m.midi = n.midi) then acc
      else acc ++ [n])
    opt

/-- Processing of one time slice inside `optimizeSimultaneousNotes`.
An `error` from a rebalancing loop (the thrown `TypeError`) propagates. -/
def processSlice (config : Config) (rightHandCopy leftHandCopy : List Note)
    (acc : List Note × List Note) (slice : TimeSlice) :
    Except String (List Note × List Note) :=
  let simultaneousRight :=
    rightHandCopy.filter (fun n => decide (activeIn n slice.startTime slice.endTime))
  let simultaneousLeft :=
    leftHandCopy.filter (fun n => decide (activeIn n slice.startTime slice.endTime))
  match moveLowLoop config.maxRightHandNotes simultaneousRight simultaneousLeft with
  | .error e => .error e
  | .ok (r1, l1) =>
    match moveHighLoop config.maxLeftHandNotes r1 l1 with
    | .error e => .error e
    | .ok (r2, l2) => .ok (dedupAdd acc.1 r2, dedupAdd acc.2 l2)

/-- The `timeSlices.forEach` loop of `optimizeSimultaneousNotes`. -/
def processSlices (config : Config) (rightHandCopy leftHandCopy : List Note) :
    List TimeSlice → (List Note × List Note) → Except String (List Note × List Note)
  | [], acc => .ok acc
  | s :: rest, acc =>
      match processSlice config rightHandCopy leftHandCopy acc s with
      | .error e => .error e
      | .ok acc2 => processSlices config rightHandCopy leftHandCopy rest acc2

/-- `optimizeSimultaneousNotes`: deep-copy both hands, build time slices over
their union, rebalance each slice against both ceilings, and merge the
per-slice results with `(time, midi)` deduplication.  The `Except` error is
the `TypeError` thrown by `reduce` on an empty subset. -/
def optimizeSimultaneousNotes (rightHand leftHand : List Note) (config : Config) :
    Except String Arrangement :=
  let rightHandCopy := rightHand
  let leftHandCopy := leftHand
  let timeSlices := createTimeSlices (rightHandCopy ++ leftHandCopy)
  match processSlices config rightHandCopy leftHandCopy timeSlices ([], []) with
  | .error e => .error e
  | .ok (optimizedRight, optimizedLeft) =>
      .ok { rightHand := optimizedRight, leftHand := optimizedLeft }

/-- An output track of the emitted MIDI file. -/
structure OutTrack where
  name : String
  instrumentNumber : Nat
  notes : List Note
deriving DecidableEq, Repr

/-- The emitted MIDI file: copied header plus the two hand tracks. -/
structure OutMidi where
  header : Header
  tracks : List OutTrack
deriving DecidableEq, Repr

/-- An abstract external `track.addNote`: given the track's current notes and
the note record passed in, either return the track's new notes or fail
(`none` models a thrown exception).  The library's behaviour is outside this
repository, so it is a parameter. -/
def AddNote : Type := List Note → Note → Option (List Note)

/-- The note record passed to `addNote`:
`{midi, time, duration, velocity: note.velocity || 64}`. -/
def normVel (n : Note) : Note :=
  { n with velocity := vOr64 n.velocity }

/-- One guarded `addNote` call of the emission loop: the `try/catch` around
`track.addNote(...)` — on failure the accumulated track is left as it was. -/
def emitStep (addNote : AddNote) (acc : List Note) (n : Note) : List Note :=
  match addNote acc (normVel n) with
  | some acc2 => acc2
  | none => acc

/-- The per-hand emission loop of `generatePianoMidi`:
`forEach` over the notes, each `addNote` call wrapped in `try/catch` — a
failure is logged and skipped, the loop continues with the next note. -/
def emitNotes (addNote : AddNote) (notes : List Note) : List Note :=
  notes.foldl (emitStep addNote) []

/-- `generatePianoMidi`: copy the header, then build the "Right Hand" and
"Left Hand" piano tracks by the guarded per-note loops.  (Console logging and
the empty-output warning have no effect on the returned value and are
elided.) -/
def generatePianoMidi (addNote : AddNote) (header : Header)
    (arrangement : Arrangement) : OutMidi :=
  { header := header
    tracks :=
      [ ({ name := "Right Hand", instrumentNumber := 0
           notes := emitNotes addNote arrangement.rightHand } : OutTrack),
        ({ name := "Left Hand", instrumentNumber := 0
           notes := emitNotes addNote arrangement.leftHand } : OutTrack) ] }

/-- The summary statistics returned by `optimizeMidiForPiano`, together with
the emitted MIDI (the value written to the output file). -/
structure OptimizeResult where
  outputMidi : OutMidi
  originalTracks : Nat
  rightHandNotes : Nat
  leftHandNotes : Nat
deriving DecidableEq, Repr

/-- The computational core of `optimizeMidiForPiano` on an already-parsed
MIDI file (file I/O, parsing and logging elided; the `duration` statistic is
a field of the external parser's object and is not modelled):
merge options, analyze tracks, create the arrangement, generate the output
MIDI.  Note that `optimizeSimultaneousNotes` does not occur on this path. -/
def optimizeMidiForPiano (addNote : AddNote) (midi : RawMidi) (options : Options) :
    OptimizeResult :=
  let config := mergeConfig options
  let analyzedTracks := analyzeMidiTracks midi.tracks
  let pianoArrangement := createPianoArrangement analyzedTracks config
  let outputMidi := generatePianoMidi addNote midi.header pianoArrangement
  { outputMidi := outputMidi
    originalTracks := midi.tracks.length
    rightHandNotes := pianoArrangement.rightHand.length
    leftHandNotes := pianoArrangement.leftHand.length }

/-! Interpretive definitions used to state properties of the embedding. -/

/-- The comparator's group rank: melody first, bass second, the rest last. -/
def rankOf : Role → Nat
  | .melody => 0
  | .bass => 1
  | _ => 2

/-- The total preorder the comparator encodes: lower rank first, and within a
rank, larger note count first. -/
def keyLE (a b : AnalyzedTrack) : Prop :=
  rankOf a.trackRole < rankOf b.trackRole ∨
    (rankOf a.trackRole = rankOf b.trackRole ∧ b.noteCount ≤ a.noteCount)

instance (a b : AnalyzedTrack) : Decidable (keyLE a b) := by
  unfold keyLE; infer_instance

/-- An always-succeeding external `addNote` that appends the note. -/
def appendAdd : AddNote := fun acc n => some (acc ++ [n])

/-- A stateless fallible external `addNote`: succeeds (appending) exactly on
the notes accepted by `canAdd`, throws on the others. -/
def addNoteIf (canAdd : Note → Bool) : AddNote :=
  fun acc n => if canAdd n then some (acc ++ [n]) else none

/-- Modelled from the spec: the arrangement the pipeline would emit if the
Polyphony Balancer were wired in after initial distribution (§9's open
question).  `optimizeSimultaneousNotes` itself is translated from the source;
only this composition is absent from the traced call path.  Used solely to
show the actual pipeline's output differs from it. -/
def balancedArrangement (midi : RawMidi) (options : Options) :
    Except String Arrangement :=
  let config := mergeConfig options
  let pianoArrangement :=
    createPianoArrangement (analyzeMidiTracks midi.tracks) config
  optimizeSimultaneousNotes pianoArrangement.rightHand pianoArrangement.leftHand
    config

/-!
Heap embedding of `optimizeSimultaneousNotes`, used for the frame property:
the source never writes a field of any note object — it only reads notes,
moves references between local arrays, and allocates fresh copies (`{...note}`
at the deep-copy step and at the merge step).  To make that visible, the same
function is given over an explicit store of note objects addressed by `Nat`:
every `{...note}` in the source is an `alloc`, every field read is a `get`,
and the hand lists hold addresses.  Addresses are allocation order; the store
only ever grows by `alloc`.
-/

/-- A store of allocated note objects; the address of a cell is its position. -/
structure Store where
  cells : List Note
deriving Repr

/-- Read the note object at an address. -/
def Store.get (s : Store) (a : Nat) : Note := s.cells.getD a default

/-- Allocate a fresh note object; returns the new store and the new address. -/
def Store.alloc (s : Store) (n : Note) : Store × Nat :=
  ({ cells := s.cells ++ [n] }, s.cells.length)

/-- `hand.map(note => ({...note}))`: allocate a fresh copy of each note. -/
def copyNotes (s : Store) (addrs : List Nat) : Store × List Nat :=
  addrs.foldl
    (fun acc a =>
      let p := acc.1.alloc (acc.1.get a)
      (p.1, acc.2 ++ [p.2]))
    (s, [])

/-- `pickLow` over addresses: the reduce reads `midi` through the store; the
returned address is the picked element's own cell. -/
def pickLowA (s : Store) (addrs : List Nat) : Option (Nat × Nat) :=
  (pickLow (addrs.map s.get)).map (fun p => (p.1, addrs.getD p.1 0))

/-- `pickHigh` over addresses. -/
def pickHighA (s : Store) (addrs : List Nat) : Option (Nat × Nat) :=
  (pickHigh (addrs.map s.get)).map (fun p => (p.1, addrs.getD p.1 0))

/-- Store-level first rebalancing loop: moves addresses only, never writes. -/
def moveLowGoA (s : Store) : Nat → Int → List Nat → List Nat →
    Except String (List Nat × List Nat)
  | 0, _, _, _ => .error "fuel exhausted (unreachable)"
  | fuel + 1, maxR, simR, simL =>
    if (simR.length : Int) > maxR then
      match pickLowA s simR with
      | none => .error "Reduce of empty array with no initial value"
      | some (i, a) => moveLowGoA s fuel maxR (simR.eraseIdx i) (simL ++ [a])
    else
      .ok (simR, simL)

/-- Store-level second rebalancing loop: moves addresses only, never writes. -/
def moveHighGoA (s : Store) : Nat → Int → List Nat → List Nat →
    Except String (List Nat × List Nat)
  | 0, _, _, _ => .error "fuel exhausted (unreachable)"
  | fuel + 1, maxL, simR, simL =>
    if (simL.length : Int) > maxL then
      match pickHighA s simL with
      | none => .error "Reduce of empty array with no initial value"
      | some (i, a) => moveHighGoA s fuel maxL (simR ++ [a]) (simL.eraseIdx i)
    else
      .ok (simR, simL)

/-- Store-level merge step: the `(time, midi)` membership test reads through
the store, and `optimized.push({...note})` allocates a fresh copy. -/
def dedupAddA (s : Store) (opt toAdd : List Nat) : Store × List Nat :=
  toAdd.foldl
    (fun acc a =>
      if acc.2.any (fun b =>
          (acc.1.get b).time = (acc.1.get a).time ∧
            (acc.1.get b).midi = (acc.1.get a).midi) then acc
      else
        let p := acc.1.alloc (acc.1.get a)
        (p.1, acc.2 ++ [p.2]))
    (s, opt)

/-- Store-level processing of one time slice. -/
def processSliceA (config : Config) (rightHandCopy leftHandCopy : List Nat)
    (s : Store) (acc : List Nat × List Nat) (slice : TimeSlice) :
    Except String (Store × (List Nat × List Nat)) :=
  let simultaneousRight := rightHandCopy.filter (fun a =>
    decide (activeIn (s.get a) slice.startTime slice.endTime))
  let simultaneousLeft := leftHandCopy.filter (fun a =>
    decide (activeIn (s.get a) slice.startTime slice.endTime))
  match moveLowGoA s (simultaneousRight.length + 1)
      config.maxRightHandNotes simultaneousRight simultaneousLeft with
  | .error e => .error e
  | .ok (r1, l1) =>
    match moveHighGoA s (l1.length + 1) config.maxLeftHandNotes r1 l1 with
    | .error e => .error e
    | .ok (r2, l2) =>
      let p1 := dedupAddA s acc.1 r2
      let p2 := dedupAddA p1.1 acc.2 l2
      .ok (p2.1, (p1.2, p2.2))

/-- Store-level `timeSlices.forEach` loop. -/
def processSlicesA (config : Config) (rightHandCopy leftHandCopy : List Nat) :
    List TimeSlice → Store → (List Nat × List Nat) →
    Except String (Store × (List Nat × List Nat))
  | [], s, acc => .ok (s, acc)
  | slice :: rest, s, acc =>
      match processSliceA config rightHandCopy leftHandCopy s acc slice with
      | .error e => .error e
      | .ok r => processSlicesA config rightHandCopy leftHandCopy rest r.1 r.2

/-- Store-level `optimizeSimultaneousNotes`: deep-copy the input objects,
build slices from the copies' values, process each slice, return the
optimized address lists.  The input addresses are only ever read. -/
def optimizeSimultaneousNotesA (s : Store) (rightHand leftHand : List Nat)
    (config : Config) : Except String (Store × (List Nat × List Nat)) :=
  let p1 := copyNotes s rightHand
  let p2 := copyNotes p1.1 leftHand
  let s2 := p2.1
  let rightHandCopy := p1.2
  let leftHandCopy := p2.2
  let timeSlices := createTimeSlices ((rightHandCopy ++ leftHandCopy).map s2.get)
  processSlicesA config rightHandCopy leftHandCopy timeSlices s2 ([], [])

/-! Concrete inputs used by witnesses and counterexamples. -/

/-- A tied-pitch pair: same pitch 60, durations 1 and 2. -/
def tieNoteA : Note := { midi := 60, time := 0, duration := 1, velocity := 64 }

/-- Second note of the tied pair (longer duration, later in the array). -/
def tieNoteB : Note := { midi := 60, time := 0, duration := 2, velocity := 64 }

/-- Ceiling 1 on the right hand, everything else at the library defaults. -/
def cfgRight1 : Config :=
  { maxRightHandNotes := 1, maxLeftHandNotes := 10, splitPoint := 60,
    dynamicSplitPoint := true, preserveMelody := true, preserveBass := true }

/-- A negative right-hand ceiling (expressible through every entry point). -/
def cfgRightNeg : Config :=
  { maxRightHandNotes := -1, maxLeftHandNotes := 10, splitPoint := 60,
    dynamicSplitPoint := true, preserveMelody := true, preserveBass := true }

/-- A single plain note at pitch 70. -/
def plainNote70 : Note := { midi := 70, time := 0, duration := 1, velocity := 64 }

/-- A melody-classified track with one note. -/
def melTrackOne : AnalyzedTrack :=
  { index := 0, name := "m1", notes := [plainNote70], avgPitch := 70,
    trackRole := .melody, noteCount := 1 }

/-- A melody-classified track with two notes, originally after `melTrackOne`. -/
def melTrackTwo : AnalyzedTrack :=
  { index := 1, name := "m2", notes := [plainNote70, plainNote70], avgPitch := 70,
    trackRole := .melody, noteCount := 2 }

/-- A raw track holding pitches 59 and 60 (average 59.5 → harmony). -/
def rawHarmTrack : RawTrack :=
  { name := "h", channel := 0,
    notes := [ { midi := 59, time := 0, duration := 1, velocity := 64 },
               { midi := 60, time := 2, duration := 1, velocity := 64 } ] }

/-- A raw track holding pitches 95 and 40 (average 67.5 → melody). -/
def rawMelTrack : RawTrack :=
  { name := "m", channel := 0,
    notes := [ { midi := 95, time := 4, duration := 1, velocity := 64 },
               { midi := 40, time := 6, duration := 1, velocity := 64 } ] }

/-- An empty header for concrete runs. -/
def emptyHeader : Header :=
  { tempos := [], timeSignatures := [], keySignatures := [], meta := [], name := "" }

/-- A one-track MIDI file with three simultaneous high notes (70, 72, 75). -/
def chordMidi : RawMidi :=
  { header := emptyHeader
    tracks := [ { name := "c", channel := 0,
                  notes := [ { midi := 70, time := 0, duration := 1, velocity := 64 },
                             { midi := 72, time := 0, duration := 1, velocity := 64 },
                             { midi := 75, time := 0, duration := 1, velocity := 64 } ] } ] }

/-- Options requesting a right-hand ceiling of 2. -/
def optionsRight2 : Options :=
  { maxRightHandNotes := some 2 }

/-- A note at pitch 13, rejected by `reject13`. -/
def badNote13 : Note := { midi := 13, time := 0, duration := 1, velocity := 64 }

/-- A per-note acceptance predicate failing exactly on pitch 13. -/
def reject13 : Note → Bool := fun n => decide (n.midi ≠ 13)

/-! ### Helper lemmas -/

/-- A fold whose step always returns one of its two arguments picks a member
of `x :: xs`. -/
theorem foldl_pick_mem {α : Type} (f : α → α → α)
    (hf : ∀ a b, f a b = a ∨ f a b = b) :
    ∀ (xs : List α) (x : α), xs.foldl f x ∈ x :: xs := by
  intro xs
  induction xs with
  | nil => intro x; simp
  | cons y ys ih =>
      intro x
      simp only [List.foldl_cons]
      rcases hf x y with h | h <;> rw [h]
      · have := ih x
        simp only [List.mem_cons] at this ⊢
        tauto
      · have := ih y
        simp only [List.mem_cons] at this ⊢
        tauto

/-- The pair returned by `pickLow` is an entry of `l.enum`. -/
theorem pickLow_mem_enum {l : List Note} {p : Nat × Note}
    (h : pickLow l = some p) : p ∈ l.enum := by
  unfold pickLow at h
  rcases he : l.enum with _ | ⟨x, xs⟩
  · rw [he] at h; simp at h
  · rw [he] at h
    simp only [Option.some.injEq] at h
    subst h
    have := foldl_pick_mem (fun a b : Nat × Note => if a.2.midi < b.2.midi then a else b)
      (by intro a b; by_cases hc : a.2.midi < b.2.midi <;> simp [hc]) xs x
    exact this

/-- The pair returned by `pickHigh` is an entry of `l.enum`. -/
theorem pickHigh_mem_enum {l : List Note} {p : Nat × Note}
    (h : pickHigh l = some p) : p ∈ l.enum := by
  unfold pickHigh at h
  rcases he : l.enum with _ | ⟨x, xs⟩
  · rw [he] at h; simp at h
  · rw [he] at h
    simp only [Option.some.injEq] at h
    subst h
    have := foldl_pick_mem (fun a b : Nat × Note => if a.2.midi > b.2.midi then a else b)
      (by intro a b; by_cases hc : a.2.midi > b.2.midi <;> simp [hc]) xs x
    exact this

/-- The index picked by `pickLow` is in range and addresses the picked note. -/
theorem pickLow_get {l : List Note} {i : Nat} {n : Note}
    (h : pickLow l = some (i, n)) : ∃ hi : i < l.length, l.get ⟨i, hi⟩ = n := by
  have hm := pickLow_mem_enum h
  rw [List.mk_mem_enum_iff_getElem?] at hm
  have hi : i < l.length := by
    by_contra hge
    rw [List.getElem?_eq_none (by omega)] at hm
    exact Option.noConfusion hm
  refine ⟨hi, ?_⟩
  rw [List.getElem?_eq_getElem hi] at hm
  simpa [List.get_eq_getElem] using Option.some.injEq _ _ ▸ hm

/-- The index picked by `pickHigh` is in range and addresses the picked note. -/
theorem pickHigh_get {l : List Note} {i : Nat} {n : Note}
    (h : pickHigh l = some (i, n)) : ∃ hi : i < l.length, l.get ⟨i, hi⟩ = n := by
  have hm := pickHigh_mem_enum h
  rw [List.mk_mem_enum_iff_getElem?] at hm
  have hi : i < l.length := by
    by_contra hge
    rw [List.getElem?_eq_none (by omega)] at hm
    exact Option.noConfusion hm
  refine ⟨hi, ?_⟩
  rw [List.getElem?_eq_getElem hi] at hm
  simpa [List.get_eq_getElem] using Option.some.injEq _ _ ▸ hm


/-- `pickLow` fails exactly on the empty array. -/
theorem pickLow_eq_none {l : List Note} : pickLow l = none ↔ l = [] := by
  rcases l with _ | ⟨x, xs⟩ <;> simp [pickLow, List.enum_cons]

/-- `pickHigh` fails exactly on the empty array. -/
theorem pickHigh_eq_none {l : List Note} : pickHigh l = none ↔ l = [] := by
  rcases l with _ | ⟨x, xs⟩ <;> simp [pickHigh, List.enum_cons]

/-- `vOr64` is idempotent. -/
theorem vOr64_idem (v : Nat) : vOr64 (vOr64 v) = vOr64 v := by
  unfold vOr64; rcases eq_or_ne v 0 with h | h <;> simp [h]

/-- `vOr64` is the identity away from `0`. -/
theorem vOr64_of_ne {v : Nat} (h : v ≠ 0) : vOr64 v = v := by
  simp [vOr64, h]

/-- `vOr64` never returns `0`. -/
theorem vOr64_ne_zero (v : Nat) : vOr64 v ≠ 0 := by
  unfold vOr64; rcases eq_or_ne v 0 with h | h <;> simp [h]

/-- `normVel` is the identity on notes with nonzero velocity. -/
theorem normVel_of_ne {n : Note} (h : n.velocity ≠ 0) : normVel n = n := by
  simp [normVel, vOr64, h]

/-- Stripping the role from a tagged note is velocity normalisation. -/
theorem stripC_tagNote (role : Role) (n : Note) :
    stripC (tagNote role n) = normVel n := by
  simp [stripC, tagNote, normVel, vOr64_idem]

/-- With enough fuel and a nonnegative ceiling, the first rebalancing loop
always succeeds, and its final right subset is within the ceiling. -/
theorem moveLowGo_ok : ∀ (fuel : Nat) (maxR : Int) (simR simL : List Note),
    simR.length < fuel → 0 ≤ maxR →
    ∃ r2 l2, moveLowGo fuel maxR simR simL = .ok (r2, l2) ∧
      (r2.length : Int) ≤ maxR := by
  intro fuel
  induction fuel with
  | zero => intro maxR simR simL h h0; omega
  | succ fuel ih =>
      intro maxR simR simL h h0
      by_cases hgt : (simR.length : Int) > maxR
      · have hne : simR ≠ [] := by
          intro he; rw [he] at hgt; simp at hgt; omega
        rcases hp : pickLow simR with _ | ⟨i, n⟩
        · exact absurd (pickLow_eq_none.mp hp) hne
        · obtain ⟨hi, -⟩ := pickLow_get hp
          have hlen : (simR.eraseIdx i).length = simR.length - 1 :=
            List.length_eraseIdx_of_lt hi
          obtain ⟨r2, l2, heq, hle⟩ :=
            ih maxR (simR.eraseIdx i) (simL ++ [n]) (by omega) h0
          refine ⟨r2, l2, ?_, hle⟩
          rw [moveLowGo, if_pos hgt, hp]
          exact heq
      · exact ⟨simR, simL, by rw [moveLowGo, if_neg hgt], by omega⟩

/-- With enough fuel and a nonnegative ceiling, the second rebalancing loop
always succeeds, and its final left subset is within the ceiling. -/
theorem moveHighGo_ok : ∀ (fuel : Nat) (maxL : Int) (simR simL : List Note),
    simL.length < fuel → 0 ≤ maxL →
    ∃ r2 l2, moveHighGo fuel maxL simR simL = .ok (r2, l2) ∧
      (l2.length : Int) ≤ maxL := by
  intro fuel
  induction fuel with
  | zero => intro maxL simR simL h h0; omega
  | succ fuel ih =>
      intro maxL simR simL h h0
      by_cases hgt : (simL.length : Int) > maxL
      · have hne : simL ≠ [] := by
          intro he; rw [he] at hgt; simp at hgt; omega
        rcases hp : pickHigh simL with _ | ⟨i, n⟩
        · exact absurd (pickHigh_eq_none.mp hp) hne
        · obtain ⟨hi, -⟩ := pickHigh_get hp
          have hlen : (simL.eraseIdx i).length = simL.length - 1 :=
            List.length_eraseIdx_of_lt hi
          obtain ⟨r2, l2, heq, hle⟩ :=
            ih maxL (simR ++ [n]) (simL.eraseIdx i) (by omega) h0
          refine ⟨r2, l2, ?_, hle⟩
          rw [moveHighGo, if_pos hgt, hp]
          exact heq
      · exact ⟨simR, simL, by rw [moveHighGo, if_neg hgt], by omega⟩

/-- Any `ok` result of the second loop has its left subset within the
ceiling: the loop only exits when the guard fails. -/
theorem moveHighGo_length_le : ∀ (fuel : Nat) (maxL : Int) (simR simL r2 l2 : List Note),
    moveHighGo fuel maxL simR simL = .ok (r2, l2) → (l2.length : Int) ≤ maxL := by
  intro fuel
  induction fuel with
  | zero => intro maxL simR simL r2 l2 h; exact absurd h (by rw [moveHighGo]; simp)
  | succ fuel ih =>
      intro maxL simR simL r2 l2 h
      rw [moveHighGo] at h
      by_cases hgt : (simL.length : Int) > maxL
      · rw [if_pos hgt] at h
        rcases hp : pickHigh simL with _ | ⟨i, n⟩
        · rw [hp] at h; exact absurd h (by simp)
        · rw [hp] at h
          exact ih maxL (simR ++ [n]) (simL.eraseIdx i) r2 l2 h
      · rw [if_neg hgt] at h
        simp only [Except.ok.injEq, Prod.mk.injEq] at h
        rcases h with ⟨-, h2⟩
        subst h2
        omega

/-- The initial-distribution fold splits the note stream by `goesRight`:
the right hand receives exactly the notes satisfying it, in order, and the
left hand exactly the others, in order. -/
theorem foldl_assignNote (cfg : Config) :
    ∀ (ns : List CNote) (arr : Arrangement),
      ns.foldl (assignNote cfg) arr =
        { rightHand := arr.rightHand ++
            (ns.filter (fun n => decide (goesRight cfg n))).map stripC
          leftHand := arr.leftHand ++
            (ns.filter (fun n => ! decide (goesRight cfg n))).map stripC }
  | [], arr => by simp
  | n :: ns, arr => by
      rw [List.foldl_cons, foldl_assignNote cfg ns]
      by_cases h : goesRight cfg n
      · simp [assignNote, h, List.filter_cons]
      · simp [assignNote, h, List.filter_cons]

/-- The flattening loop is concatenation of the per-track tagged note lists. -/
theorem collectNotes_aux :
    ∀ (ts : List AnalyzedTrack) (acc : List CNote),
      ts.foldl (fun acc t => acc ++ t.notes.map (tagNote t.trackRole)) acc =
        acc ++ (ts.map (fun t => t.notes.map (tagNote t.trackRole))).flatten
  | [], acc => by simp
  | t :: ts, acc => by
      rw [List.foldl_cons, collectNotes_aux ts]
      simp

/-- `collectNotes` as a map-flatten. -/
theorem collectNotes_eq (ts : List AnalyzedTrack) :
    collectNotes ts =
      (ts.map (fun t => t.notes.map (tagNote t.trackRole))).flatten := by
  unfold collectNotes
  rw [collectNotes_aux]
  simp

/-- The track-analysis fold keeps exactly the non-skipped tracks, in order. -/
theorem analyzeMidiTracks_aux :
    ∀ (l : List (Nat × RawTrack)) (acc : List AnalyzedTrack),
      l.foldl (fun acc it =>
          if it.2.notes.length = 0 ∨ it.2.channel = 9 then acc
          else acc ++ [analyzeTrack it.1 it.2]) acc =
        acc ++ (l.filter (fun it =>
            ! decide (it.2.notes.length = 0 ∨ it.2.channel = 9))).map
          (fun it => analyzeTrack it.1 it.2)
  | [], acc => by simp
  | it :: l, acc => by
      rw [List.foldl_cons, analyzeMidiTracks_aux l, List.filter_cons]
      by_cases h : it.2.notes.length = 0 ∨ it.2.channel = 9
      · have hd : (! decide (it.2.notes.length = 0 ∨ it.2.channel = 9)) = false := by
          rw [decide_eq_true h]; rfl
        rw [if_pos h, hd]
        simp
      · have hd : (! decide (it.2.notes.length = 0 ∨ it.2.channel = 9)) = true := by
          rw [decide_eq_false h]; rfl
        rw [if_neg h, hd]
        simp

/-- `analyzeMidiTracks` as filter-then-map over the enumerated tracks. -/
theorem analyzeMidiTracks_eq (tracks : List RawTrack) :
    analyzeMidiTracks tracks =
      (tracks.enum.filter (fun it =>
          ! decide (it.2.notes.length = 0 ∨ it.2.channel = 9))).map
        (fun it => analyzeTrack it.1 it.2) := by
  unfold analyzeMidiTracks
  rw [analyzeMidiTracks_aux]
  simp

/-- The comparator accepts `a` before `b` exactly when `a`'s key
`(rank, -noteCount)` is lexicographically at most `b`'s. -/
theorem trackCompare_le_iff (a b : AnalyzedTrack) :
    trackCompare a b ≤ 0 ↔ keyLE a b := by
  unfold trackCompare keyLE
  cases ha : a.trackRole <;> cases hb : b.trackRole <;>
    simp [rankOf] <;> omega

instance : IsTotal AnalyzedTrack trackPrec where
  total := by
    intro a b
    unfold trackPrec
    rw [trackCompare_le_iff, trackCompare_le_iff]
    unfold keyLE
    omega

instance : IsTrans AnalyzedTrack trackPrec where
  trans := by
    intro a b c
    unfold trackPrec
    rw [trackCompare_le_iff, trackCompare_le_iff, trackCompare_le_iff]
    unfold keyLE
    omega

/-- Sorting the tracks permutes them. -/
theorem sortTracks_perm (ts : List AnalyzedTrack) : List.Perm (sortTracks ts) ts :=
  List.perm_insertionSort trackPrec ts

/-- The sorted tracks are pairwise ordered by the comparator's key. -/
theorem sortTracks_pairwise (ts : List AnalyzedTrack) :
    (sortTracks ts).Pairwise keyLE := by
  have h := List.sorted_insertionSort trackPrec ts
  exact h.imp (fun hab => (trackCompare_le_iff _ _).mp hab)

/-- Stability of the track sort: any class of pairwise-tied tracks appears in
the output in its original relative order. -/
theorem sortTracks_filter_eq (ts : List AnalyzedTrack) (p : AnalyzedTrack → Bool)
    (hp : ∀ a b, p a = true → p b = true → trackPrec a b) :
    (sortTracks ts).filter p = ts.filter p := by
  have hpw : (ts.filter p).Pairwise trackPrec := by
    apply List.pairwise_of_forall_mem_list
    intro a ha b hb
    exact hp a b (List.of_mem_filter ha) (List.of_mem_filter hb)
  have hsub : List.Sublist (ts.filter p) (sortTracks ts) :=
    List.sublist_insertionSort hpw (List.filter_sublist ts)
  have h1 : List.Sublist (ts.filter p) ((sortTracks ts).filter p) := by
    have h2 := hsub.filter p
    simp only [List.filter_filter, Bool.and_self] at h2
    exact h2
  have hlen : ((sortTracks ts).filter p).length = (ts.filter p).length :=
    ((sortTracks_perm ts).filter p).length_eq
  exact (h1.eq_of_length hlen.symm).symm

/-- The distributor's output, hand by hand: the right hand is the ordered
sequence of flattened notes passing `goesRight`, the left hand the others. -/
theorem createPianoArrangement_eq (ts : List AnalyzedTrack) (cfg : Config) :
    createPianoArrangement ts cfg =
      { rightHand := ((collectNotes (sortTracks ts)).filter
            (fun n => decide (goesRight cfg n))).map stripC
        leftHand := ((collectNotes (sortTracks ts)).filter
            (fun n => ! decide (goesRight cfg n))).map stripC } := by
  unfold createPianoArrangement
  rw [foldl_assignNote]
  simp

/-- The indices of `l.enum` are strictly increasing. -/
theorem enum_pairwise_fst_lt (l : List Note) :
    l.enum.Pairwise (fun p q => p.1 < q.1) := by
  rw [List.pairwise_iff_getElem]
  intro i j hi hj hij
  simp only [List.getElem_enum]
  simpa using hij

/-- The reduce of the lowest-pitch pick: the result is an entry of the
enumerated subset, its pitch is minimal, and every entry at a later position
has strictly larger pitch (under a tie the reduce keeps the later entry, so
the winner is the last minimal one). -/
theorem foldl_minPick (xs : List (Nat × Note)) (x : Nat × Note)
    (hinc : (x :: xs).Pairwise (fun p q => p.1 < q.1)) :
    (xs.foldl (fun a b => if a.2.midi < b.2.midi then a else b) x) ∈ x :: xs ∧
    (∀ p ∈ x :: xs,
      (xs.foldl (fun a b => if a.2.midi < b.2.midi then a else b) x).2.midi ≤ p.2.midi) ∧
    (∀ p ∈ x :: xs,
      (xs.foldl (fun a b => if a.2.midi < b.2.midi then a else b) x).1 < p.1 →
      (xs.foldl (fun a b => if a.2.midi < b.2.midi then a else b) x).2.midi < p.2.midi) := by
  induction xs using List.reverseRecOn with
  | nil =>
      refine ⟨List.mem_singleton_self x, ?_, ?_⟩
      · intro p hp
        rw [List.mem_singleton] at hp
        subst hp
        exact le_refl _
      · intro p hp hlt
        rw [List.mem_singleton] at hp
        subst hp
        exact absurd hlt (lt_irrefl _)
  | append_singleton xs y ih =>
      have hcons : x :: (xs ++ [y]) = (x :: xs) ++ [y] := by simp
      have hinc2 : ((x :: xs) ++ [y]).Pairwise (fun p q => p.1 < q.1) := by
        rwa [hcons] at hinc
      have hsub : (x :: xs).Pairwise (fun p q => p.1 < q.1) :=
        hinc2.sublist (List.sublist_append_left _ _)
      have hbefore : ∀ q ∈ x :: xs, q.1 < y.1 := by
        intro q hq
        exact (List.pairwise_append.mp hinc2).2.2 q hq y (List.mem_singleton_self y)
      obtain ⟨ihmem, ihmin, ihlast⟩ := ih hsub
      rw [List.foldl_append]
      simp only [List.foldl_cons, List.foldl_nil]
      set r := xs.foldl (fun a b => if a.2.midi < b.2.midi then a else b) x with hr
      by_cases hc : r.2.midi < y.2.midi
      · rw [if_pos hc]
        refine ⟨?_, ?_, ?_⟩
        · rcases List.mem_cons.mp ihmem with h | h
          · simp [h]
          · simp [List.mem_append, h]
        · intro p hp
          rcases List.mem_cons.mp hp with h | h
          · exact ihmin p (by simp [h])
          · rcases List.mem_append.mp h with h2 | h2
            · exact ihmin p (by simp [h2])
            · rw [List.mem_singleton] at h2
              subst h2
              exact le_of_lt hc
        · intro p hp hlt
          rcases List.mem_cons.mp hp with h | h
          · exact ihlast p (by simp [h]) hlt
          · rcases List.mem_append.mp h with h2 | h2
            · exact ihlast p (by simp [h2]) hlt
            · rw [List.mem_singleton] at h2
              subst h2
              exact hc
      · rw [if_neg hc]
        push_neg at hc
        refine ⟨?_, ?_, ?_⟩
        · simp
        · intro p hp
          rcases List.mem_cons.mp hp with h | h
          · exact le_trans hc (ihmin p (by simp [h]))
          · rcases List.mem_append.mp h with h2 | h2
            · exact le_trans hc (ihmin p (by simp [h2]))
            · rw [List.mem_singleton] at h2
              subst h2
              exact le_refl _
        · intro p hp hlt
          rcases List.mem_cons.mp hp with h | h
          · exact absurd hlt (by
              have := hbefore p (by simp [h])
              omega)
          · rcases List.mem_append.mp h with h2 | h2
            · exact absurd hlt (by
                have := hbefore p (by simp [h2])
                omega)
            · rw [List.mem_singleton] at h2
              subst h2
              exact absurd hlt (lt_irrefl _)

/-- The reduce of the highest-pitch pick, mirror of `foldl_minPick`. -/
theorem foldl_maxPick (xs : List (Nat × Note)) (x : Nat × Note)
    (hinc : (x :: xs).Pairwise (fun p q => p.1 < q.1)) :
    (xs.foldl (fun a b => if a.2.midi > b.2.midi then a else b) x) ∈ x :: xs ∧
    (∀ p ∈ x :: xs,
      p.2.midi ≤ (xs.foldl (fun a b => if a.2.midi > b.2.midi then a else b) x).2.midi) ∧
    (∀ p ∈ x :: xs,
      (xs.foldl (fun a b => if a.2.midi > b.2.midi then a else b) x).1 < p.1 →
      p.2.midi < (xs.foldl (fun a b => if a.2.midi > b.2.midi then a else b) x).2.midi) := by
  induction xs using List.reverseRecOn with
  | nil =>
      refine ⟨List.mem_singleton_self x, ?_, ?_⟩
      · intro p hp
        rw [List.mem_singleton] at hp
        subst hp
        exact le_refl _
      · intro p hp hlt
        rw [List.mem_singleton] at hp
        subst hp
        exact absurd hlt (lt_irrefl _)
  | append_singleton xs y ih =>
      have hcons : x :: (xs ++ [y]) = (x :: xs) ++ [y] := by simp
      have hinc2 : ((x :: xs) ++ [y]).Pairwise (fun p q => p.1 < q.1) := by
        rwa [hcons] at hinc
      have hsub : (x :: xs).Pairwise (fun p q => p.1 < q.1) :=
        hinc2.sublist (List.sublist_append_left _ _)
      have hbefore : ∀ q ∈ x :: xs, q.1 < y.1 := by
        intro q hq
        exact (List.pairwise_append.mp hinc2).2.2 q hq y (List.mem_singleton_self y)
      obtain ⟨ihmem, ihmax, ihlast⟩ := ih hsub
      rw [List.foldl_append]
      simp only [List.foldl_cons, List.foldl_nil]
      set r := xs.foldl (fun a b => if a.2.midi > b.2.midi then a else b) x with hr
      by_cases hc : r.2.midi > y.2.midi
      · rw [if_pos hc]
        refine ⟨?_, ?_, ?_⟩
        · rcases List.mem_cons.mp ihmem with h | h
          · simp [h]
          · simp [List.mem_append, h]
        · intro p hp
          rcases List.mem_cons.mp hp with h | h
          · exact ihmax p (by simp [h])
          · rcases List.mem_append.mp h with h2 | h2
            · exact ihmax p (by simp [h2])
            · rw [List.mem_singleton] at h2
              subst h2
              exact le_of_lt hc
        · intro p hp hlt
          rcases List.mem_cons.mp hp with h | h
          · exact ihlast p (by simp [h]) hlt
          · rcases List.mem_append.mp h with h2 | h2
            · exact ihlast p (by simp [h2]) hlt
            · rw [List.mem_singleton] at h2
              subst h2
              exact hc
      · rw [if_neg hc]
        push_neg at hc
        refine ⟨?_, ?_, ?_⟩
        · simp
        · intro p hp
          rcases List.mem_cons.mp hp with h | h
          · exact le_trans (ihmax p (by simp [h])) hc
          · rcases List.mem_append.mp h with h2 | h2
            · exact le_trans (ihmax p (by simp [h2])) hc
            · rw [List.mem_singleton] at h2
              subst h2
              exact le_refl _
        · intro p hp hlt
          rcases List.mem_cons.mp hp with h | h
          · exact absurd hlt (by
              have := hbefore p (by simp [h])
              omega)
          · rcases List.mem_append.mp h with h2 | h2
            · exact absurd hlt (by
                have := hbefore p (by simp [h2])
                omega)
            · rw [List.mem_singleton] at h2
              subst h2
              exact absurd hlt (lt_irrefl _)

/-- Full specification of `pickLow`: the picked pair is an enum entry of the
subset, its pitch is minimal, and every entry at a later position is strictly
higher — i.e. under a pitch tie the pick is the last tied entry. -/
theorem pickLow_spec {l : List Note} {i : Nat} {n : Note}
    (h : pickLow l = some (i, n)) :
    (i, n) ∈ l.enum ∧ (∀ m ∈ l, n.midi ≤ m.midi) ∧
      (∀ p ∈ l.enum, i < p.1 → n.midi < p.2.midi) := by
  unfold pickLow at h
  rcases he : l.enum with _ | ⟨x, xs⟩
  · rw [he] at h; exact absurd h (by simp)
  · rw [he] at h
    simp only [Option.some.injEq] at h
    have hinc : (x :: xs).Pairwise (fun p q => p.1 < q.1) := by
      rw [← he]; exact enum_pairwise_fst_lt l
    obtain ⟨hmem, hmin, hlast⟩ := foldl_minPick xs x hinc
    rw [h] at hmem hmin hlast
    refine ⟨hmem, ?_, ?_⟩
    · intro m hm
      obtain ⟨j, hj, hjm⟩ := List.mem_iff_getElem.mp hm
      have hjmem : (j, m) ∈ l.enum := by
        rw [List.mk_mem_enum_iff_getElem?, List.getElem?_eq_getElem hj, hjm]
      rw [he] at hjmem
      exact hmin (j, m) hjmem
    · intro p hp hip
      exact hlast p hp hip

/-- Full specification of `pickHigh`, mirror of `pickLow_spec`. -/
theorem pickHigh_spec {l : List Note} {i : Nat} {n : Note}
    (h : pickHigh l = some (i, n)) :
    (i, n) ∈ l.enum ∧ (∀ m ∈ l, m.midi ≤ n.midi) ∧
      (∀ p ∈ l.enum, i < p.1 → p.2.midi < n.midi) := by
  unfold pickHigh at h
  rcases he : l.enum with _ | ⟨x, xs⟩
  · rw [he] at h; exact absurd h (by simp)
  · rw [he] at h
    simp only [Option.some.injEq] at h
    have hinc : (x :: xs).Pairwise (fun p q => p.1 < q.1) := by
      rw [← he]; exact enum_pairwise_fst_lt l
    obtain ⟨hmem, hmax, hlast⟩ := foldl_maxPick xs x hinc
    rw [h] at hmem hmax hlast
    refine ⟨hmem, ?_, ?_⟩
    · intro m hm
      obtain ⟨j, hj, hjm⟩ := List.mem_iff_getElem.mp hm
      have hjmem : (j, m) ∈ l.enum := by
        rw [List.mk_mem_enum_iff_getElem?, List.getElem?_eq_getElem hj, hjm]
      rw [he] at hjmem
      exact hmax (j, m) hjmem
    · intro p hp hip
      exact hlast p hp hip

/-- A failing `addNote` call contributes nothing: the emission loop on a list
containing the failing note equals the loop on the list without it. -/
theorem emitNotes_skip (addNote : AddNote) (l1 l2 : List Note) (bad : Note)
    (h : addNote (emitNotes addNote l1) (normVel bad) = none) :
    emitNotes addNote (l1 ++ bad :: l2) = emitNotes addNote (l1 ++ l2) := by
  have hstep : emitStep addNote (emitNotes addNote l1) bad =
      emitNotes addNote l1 := by
    unfold emitStep
    rw [h]
  unfold emitNotes at hstep ⊢
  rw [List.foldl_append, List.foldl_cons, hstep, ← List.foldl_append]

/-- Emission under a stateless fallible `addNote`: exactly the accepted
notes survive, normalised, in their original order. -/
theorem emitNotes_addNoteIf_aux (canAdd : Note → Bool) :
    ∀ (notes acc : List Note),
      notes.foldl (emitStep (addNoteIf canAdd)) acc =
        acc ++ (notes.map normVel).filter canAdd
  | [], acc => by simp
  | n :: ns, acc => by
      rw [List.foldl_cons, emitNotes_addNoteIf_aux canAdd ns]
      by_cases h : canAdd (normVel n)
      · simp [emitStep, addNoteIf, h, List.filter_cons]
      · simp [emitStep, addNoteIf, h, List.filter_cons]

/-- `emitNotes` under a stateless fallible `addNote`. -/
theorem emitNotes_addNoteIf (canAdd : Note → Bool) (notes : List Note) :
    emitNotes (addNoteIf canAdd) notes = (notes.map normVel).filter canAdd := by
  unfold emitNotes
  rw [emitNotes_addNoteIf_aux]
  simp

/-- Emission under the always-succeeding `addNote` keeps every note. -/
theorem emitNotes_appendAdd_aux :
    ∀ (notes acc : List Note),
      notes.foldl (emitStep appendAdd) acc = acc ++ notes.map normVel
  | [], acc => by simp
  | n :: ns, acc => by
      rw [List.foldl_cons, emitNotes_appendAdd_aux ns]
      simp [emitStep, appendAdd]

/-- `emitNotes` under the always-succeeding `addNote`. -/
theorem emitNotes_appendAdd (notes : List Note) :
    emitNotes appendAdd notes = notes.map normVel := by
  unfold emitNotes
  rw [emitNotes_appendAdd_aux]
  simp

/-! ### Claim theorems -/

/-- C4: a note is assigned to the right hand iff its owning track's role is
melody or its pitch is at least the configured split point, otherwise to the
left hand — stated as the exact filter characterisation of both hands over
the flattened note stream.  In particular (second conjunct, `splitPoint` 60):
the non-melody note at pitch 59 lands in the left hand, the note at pitch 60
and the melody-track note at pitch 40 land in the right hand. -/
theorem claim_C4 :
    (∀ (ts : List AnalyzedTrack) (cfg : Config),
      (createPianoArrangement ts cfg).rightHand =
        ((collectNotes (sortTracks ts)).filter
            (fun n => decide (goesRight cfg n))).map stripC ∧
      (createPianoArrangement ts cfg).leftHand =
        ((collectNotes (sortTracks ts)).filter
            (fun n => ! decide (goesRight cfg n))).map stripC) ∧
    createPianoArrangement (analyzeMidiTracks [rawHarmTrack, rawMelTrack])
        defaultOptions =
      { rightHand := [ { midi := 95, time := 4, duration := 1, velocity := 64 },
                       { midi := 40, time := 6, duration := 1, velocity := 64 },
                       { midi := 60, time := 2, duration := 1, velocity := 64 } ]
        leftHand := [ { midi := 59, time := 0, duration := 1, velocity := 64 } ] } := by
  constructor
  · intro ts cfg
    rw [createPianoArrangement_eq]
    exact ⟨rfl, rfl⟩
  · norm_num [createPianoArrangement, analyzeMidiTracks, analyzeTrack, classifyRole,
      rawHarmTrack, rawMelTrack, defaultOptions, sortTracks, collectNotes, tagNote,
      assignNote, goesRight, stripC, vOr64, trackPrec, trackCompare,
      List.insertionSort, List.orderedInsert, List.enum, List.enumFrom, List.foldl]
    exact ⟨rfl, rfl⟩

/-- C5 counterexample: the claim says tracks within the melody group keep
their original relative order, but the comparator falls through to the
note-count comparison for two melody tracks; two melody tracks with note
counts 1 and 2 (in that original order) come out reordered, so the
melody-group filter of the sorted list differs from that of the input. -/
theorem claim_C5_counterexample :
    (sortTracks [melTrackOne, melTrackTwo]).filter
        (fun t => decide (t.trackRole = .melody)) ≠
      [melTrackOne, melTrackTwo].filter
        (fun t => decide (t.trackRole = .melody)) := by
  have hsort : sortTracks [melTrackOne, melTrackTwo] = [melTrackTwo, melTrackOne] := by
    norm_num [sortTracks, melTrackOne, melTrackTwo, trackPrec, trackCompare,
      List.insertionSort, List.orderedInsert]
  rw [hsort]
  intro h
  simp only [melTrackOne, melTrackTwo, plainNote70, List.filter_cons,
    List.filter_nil] at h
  simp at h

/-- C5 amended: the sort is a permutation that orders tracks by the
lexicographic key (group rank: melody, bass, others; then descending note
count), and it is stable exactly on ties of that key — i.e. tracks with the
same rank AND the same note count keep their original relative order; within
the melody group (and the bass group) tracks with differing note counts are
reordered by descending note count, not kept in original order. -/
theorem claim_C5_amended (ts : List AnalyzedTrack) :
    List.Perm (sortTracks ts) ts ∧
    (sortTracks ts).Pairwise keyLE ∧
    (∀ r c, (sortTracks ts).filter
        (fun t => decide (rankOf t.trackRole = r ∧ t.noteCount = c)) =
      ts.filter (fun t => decide (rankOf t.trackRole = r ∧ t.noteCount = c))) := by
  refine ⟨sortTracks_perm ts, sortTracks_pairwise ts, ?_⟩
  intro r c
  apply sortTracks_filter_eq
  intro a b ha hb
  rw [decide_eq_true_eq] at ha hb
  unfold trackPrec
  rw [trackCompare_le_iff]
  unfold keyLE
  omega

/-- C6: `analyzeMidiTracks` keeps exactly the tracks that are non-empty and
not on percussion channel 9 (first conjunct: it equals the filter-map over
the enumerated input, so exclusion is silent and total); every surviving
track's role is melody, bass or harmony, never unknown (second conjunct);
and an excluded track's index never occurs among the analyzed tracks, so it
contributes zero notes to every later stage (third conjunct). -/
theorem claim_C6 (tracks : List RawTrack) :
    analyzeMidiTracks tracks =
      (tracks.enum.filter (fun it =>
          ! decide (it.2.notes.length = 0 ∨ it.2.channel = 9))).map
        (fun it => analyzeTrack it.1 it.2) ∧
    (∀ a ∈ analyzeMidiTracks tracks,
      a.trackRole = .melody ∨ a.trackRole = .bass ∨ a.trackRole = .harmony) ∧
    (∀ it ∈ tracks.enum, (it.2.notes.length = 0 ∨ it.2.channel = 9) →
      ∀ a ∈ analyzeMidiTracks tracks, a.index ≠ it.1) := by
  refine ⟨analyzeMidiTracks_eq tracks, ?_, ?_⟩
  · intro a ha
    rw [analyzeMidiTracks_eq] at ha
    obtain ⟨it, -, hit⟩ := List.mem_map.mp ha
    have hcl : a.trackRole = classifyRole ((it.2.notes.map
        (fun n => (n.midi : ℚ))).sum / (it.2.notes.length : ℚ)) := by
      rw [← hit]
      rfl
    rw [hcl]
    unfold classifyRole
    by_cases h1 : ((it.2.notes.map (fun n => (n.midi : ℚ))).sum /
        (it.2.notes.length : ℚ)) > 65
    · simp [h1]
    · by_cases h2 : ((it.2.notes.map (fun n => (n.midi : ℚ))).sum /
          (it.2.notes.length : ℚ)) < 52 <;> simp [h1, h2]
  · intro it hit hexcl a ha hidx
    rw [analyzeMidiTracks_eq] at ha
    obtain ⟨ju, hju, hja⟩ := List.mem_map.mp ha
    have hkeep := List.of_mem_filter hju
    have hjmem := List.mem_of_mem_filter hju
    have hida : a.index = ju.1 := by rw [← hja]; rfl
    have hj1 : ju.1 = it.1 := by rw [← hida, hidx]
    have h1 : tracks[ju.1]? = some ju.2 := by
      rw [← List.mk_mem_enum_iff_getElem?]
      exact hjmem
    have h2 : tracks[it.1]? = some it.2 := by
      rw [← List.mk_mem_enum_iff_getElem?]
      exact hit
    rw [hj1, h2] at h1
    have hsame : ju.2 = it.2 := by
      simpa using h1.symm
    rw [hsame] at hkeep
    rw [decide_eq_true hexcl] at hkeep
    simp at hkeep

/-- Witness for C6 at a concrete input: a MIDI file whose first track is an
empty track and whose second is the chord track; the excluded track's index 0
never occurs among the analyzed tracks. -/
theorem claim_C6_witness :
    ∀ a ∈ analyzeMidiTracks
        [{ name := "e", channel := 0, notes := [] }, rawHarmTrack],
      a.index ≠ 0 := by
  intro a ha
  exact (claim_C6 _).2.2 (0, { name := "e", channel := 0, notes := [] })
    (by simp [List.enum_cons]) (by simp) a ha

/-- C1: the initial distribution partitions the input notes exactly — the
multiset union of the returned right and left hands equals the multiset of
all notes of all input tracks, with no loss and no duplication.  The side
condition (no note with velocity 0) characterises the tracks that survive
classification: the second conjunct proves every output of
`analyzeMidiTracks` satisfies it, because the classifier copies notes with
`velocity: note.velocity || 64`.  (For a raw velocity-0 note the distributor
would emit velocity 64, which is why the claim is scoped to classified
tracks.) -/
theorem claim_C1 :
    (∀ (tracks : List AnalyzedTrack) (cfg : Config),
      (∀ t ∈ tracks, ∀ n ∈ t.notes, n.velocity ≠ 0) →
      ((createPianoArrangement tracks cfg).rightHand : Multiset Note) +
          ((createPianoArrangement tracks cfg).leftHand : Multiset Note) =
        ((tracks.map (fun t => t.notes)).flatten : Multiset Note)) ∧
    (∀ rawTracks : List RawTrack, ∀ t ∈ analyzeMidiTracks rawTracks,
      ∀ n ∈ t.notes, n.velocity ≠ 0) := by
  constructor
  · intro tracks cfg hvel
    rw [createPianoArrangement_eq]
    rw [Multiset.coe_add, Multiset.coe_eq_coe]
    rw [← List.map_append]
    have h1 : List.Perm
        ((collectNotes (sortTracks tracks)).filter
            (fun n => decide (goesRight cfg n)) ++
          (collectNotes (sortTracks tracks)).filter
            (fun n => ! decide (goesRight cfg n)))
        (collectNotes (sortTracks tracks)) :=
      List.filter_append_perm _ _
    refine (h1.map stripC).trans ?_
    rw [collectNotes_eq, List.map_flatten, List.map_map]
    have h2 : (sortTracks tracks).map
        (List.map stripC ∘ fun t => t.notes.map (tagNote t.trackRole)) =
        (sortTracks tracks).map (fun t => t.notes) := by
      apply List.map_congr_left
      intro t htmem
      have htin : t ∈ tracks := (sortTracks_perm tracks).mem_iff.mp htmem
      simp only [Function.comp_apply, List.map_map]
      have hid : ∀ n ∈ t.notes, (stripC ∘ tagNote t.trackRole) n = n := by
        intro n hnmem
        simp only [Function.comp_apply, stripC_tagNote]
        exact normVel_of_ne (hvel t htin n hnmem)
      calc t.notes.map (stripC ∘ tagNote t.trackRole)
          = t.notes.map (fun n => n) := List.map_congr_left hid
        _ = t.notes := by simp
    rw [h2]
    exact ((sortTracks_perm tracks).map (fun t => t.notes)).flatten
  · intro rawTracks t ht n hn
    rw [analyzeMidiTracks_eq] at ht
    obtain ⟨it, -, hit⟩ := List.mem_map.mp ht
    have hnotes : t.notes = it.2.notes.map (fun n =>
        { midi := n.midi, time := n.time, duration := n.duration
          velocity := vOr64 n.velocity }) := by
      rw [← hit]
      rfl
    rw [hnotes] at hn
    obtain ⟨rn, -, hrn⟩ := List.mem_map.mp hn
    rw [← hrn]
    exact vOr64_ne_zero rn.velocity

/-- Witness for C1 at a concrete classified track list. -/
theorem claim_C1_witness :
    ((createPianoArrangement [melTrackOne] defaultOptions).rightHand :
        Multiset Note) +
      ((createPianoArrangement [melTrackOne] defaultOptions).leftHand :
        Multiset Note) =
      (([melTrackOne].map (fun t => t.notes)).flatten : Multiset Note) :=
  claim_C1.1 [melTrackOne] defaultOptions (by decide)

/-- C2: the top-level pipeline emits exactly the un-balanced initial
distribution — `optimizeMidiForPiano` equals the composition of
`analyzeMidiTracks`, `createPianoArrangement` and `generatePianoMidi`, with
`optimizeSimultaneousNotes` absent from the call path (first conjunct, which
holds definitionally because the source never calls it there).  The second
conjunct shows this is substantive: on a concrete three-note chord with a
right-hand ceiling of 2, the balancer would emit 2 right-hand notes, but the
pipeline emits all 3. -/
theorem claim_C2 :
    (∀ (addNote : AddNote) (midi : RawMidi) (options : Options),
      optimizeMidiForPiano addNote midi options =
        { outputMidi := generatePianoMidi addNote midi.header
            (createPianoArrangement (analyzeMidiTracks midi.tracks)
              (mergeConfig options))
          originalTracks := midi.tracks.length
          rightHandNotes := (createPianoArrangement (analyzeMidiTracks midi.tracks)
            (mergeConfig options)).rightHand.length
          leftHandNotes := (createPianoArrangement (analyzeMidiTracks midi.tracks)
            (mergeConfig options)).leftHand.length }) ∧
    (optimizeMidiForPiano appendAdd chordMidi optionsRight2).rightHandNotes = 3 ∧
    (balancedArrangement chordMidi optionsRight2).toOption.map
      (fun a => a.rightHand.length) = some 2 := by
  refine ⟨fun addNote midi options => rfl, ?_, ?_⟩
  · norm_num [optimizeMidiForPiano, mergeConfig, defaultOptions, optionsRight2,
      chordMidi, analyzeMidiTracks, analyzeTrack, classifyRole, emptyHeader,
      createPianoArrangement, sortTracks, collectNotes, tagNote, assignNote,
      goesRight, stripC, vOr64, trackPrec, trackCompare,
      List.insertionSort, List.orderedInsert, List.enum, List.enumFrom, List.foldl]
  · norm_num [balancedArrangement, mergeConfig, defaultOptions, optionsRight2,
      chordMidi, analyzeMidiTracks, analyzeTrack, classifyRole, emptyHeader,
      createPianoArrangement, sortTracks, collectNotes, tagNote, assignNote,
      goesRight, stripC, vOr64, trackPrec, trackCompare,
      optimizeSimultaneousNotes, createTimeSlices, processSlices, processSlice,
      moveLowLoop, moveLowGo, moveHighLoop, moveHighGo, pickLow, pickHigh,
      dedupAdd, activeIn, List.insertionSort, List.orderedInsert, List.dedup,
      List.enum, List.enumFrom, List.foldl, List.filter, List.zip, List.zipWith,
      Bind.bind, Except.bind, Pure.pure, Except.pure]
    exact ⟨_, rfl, rfl⟩

/-- C3 counterexample: the claim says that under a pitch tie the note moved
is the FIRST extremal note in the subset's iteration order.  With two
right-hand notes of equal pitch 60 (durations 1 and 2, in that order) and a
right-hand ceiling of 1, the balancer moves the SECOND one (duration 2) to
the left hand — `reduce((a, b) => a.midi < b.midi ? a : b)` keeps `b` on a
tie, so the last tied note wins. -/
theorem claim_C3_counterexample :
    optimizeSimultaneousNotes [tieNoteA, tieNoteB] [] cfgRight1 =
      .ok { rightHand := [tieNoteA], leftHand := [tieNoteB] } ∧
    tieNoteB ≠ tieNoteA ∧ tieNoteB.midi = tieNoteA.midi := by
  refine ⟨?_, ?_, ?_⟩
  · norm_num [optimizeSimultaneousNotes, createTimeSlices, processSlices,
      processSlice, moveLowLoop, moveLowGo, moveHighLoop, moveHighGo, pickLow,
      pickHigh, dedupAdd, activeIn, tieNoteA, tieNoteB, cfgRight1,
      List.insertionSort, List.orderedInsert, List.dedup, List.enum,
      List.enumFrom, List.foldl, List.filter, List.zip, List.zipWith,
      Bind.bind, Except.bind, Pure.pure, Except.pure]
  · intro h
    have := congrArg (fun n => n.duration) h
    simp [tieNoteA, tieNoteB] at this
  · rfl

/-- C3 amended: whenever a hand's active subset exceeds its ceiling, the
while-loop removes the note returned by the embedded reduce and appends it
to the other hand (last two conjuncts); that note has minimal (resp.
maximal) pitch in the subset, and under a pitch tie it is the LAST such
extremal note in the subset's current iteration order — every entry at a
later position is strictly higher (resp. lower), as the reduce keeps its
second argument on ties. -/
theorem claim_C3_amended (l : List Note) (hne : l ≠ []) :
    (∃ i n, pickLow l = some (i, n) ∧ l[i]? = some n ∧
      (∀ m ∈ l, n.midi ≤ m.midi) ∧
      (∀ p ∈ l.enum, i < p.1 → n.midi < p.2.midi)) ∧
    (∃ i n, pickHigh l = some (i, n) ∧ l[i]? = some n ∧
      (∀ m ∈ l, m.midi ≤ n.midi) ∧
      (∀ p ∈ l.enum, i < p.1 → p.2.midi < n.midi)) ∧
    (∀ (maxR : Int) (simL : List Note) (i : Nat) (n : Note),
      pickLow l = some (i, n) → (l.length : Int) > maxR →
      moveLowLoop maxR l simL =
        moveLowLoop maxR (l.eraseIdx i) (simL ++ [n])) ∧
    (∀ (maxL : Int) (simR : List Note) (i : Nat) (n : Note),
      pickHigh l = some (i, n) → (l.length : Int) > maxL →
      moveHighLoop maxL simR l =
        moveHighLoop maxL (simR ++ [n]) (l.eraseIdx i)) := by
  refine ⟨?_, ?_, ?_, ?_⟩
  · rcases hp : pickLow l with _ | ⟨i, n⟩
    · exact absurd (pickLow_eq_none.mp hp) hne
    · obtain ⟨hmem, hmin, hlast⟩ := pickLow_spec hp
      exact ⟨i, n, rfl, List.mk_mem_enum_iff_getElem?.mp hmem, hmin, hlast⟩
  · rcases hp : pickHigh l with _ | ⟨i, n⟩
    · exact absurd (pickHigh_eq_none.mp hp) hne
    · obtain ⟨hmem, hmax, hlast⟩ := pickHigh_spec hp
      exact ⟨i, n, rfl, List.mk_mem_enum_iff_getElem?.mp hmem, hmax, hlast⟩
  · intro maxR simL i n hp hgt
    obtain ⟨hi, -⟩ := pickLow_get hp
    have hlen : (l.eraseIdx i).length = l.length - 1 :=
      List.length_eraseIdx_of_lt hi
    have hlpos : 1 ≤ l.length := by
      rcases l with _ | _
      · exact absurd rfl hne
      · simp
    unfold moveLowLoop
    rw [moveLowGo, if_pos hgt, hp]
    have hfuel : (l.eraseIdx i).length + 1 = l.length := by
      rw [hlen]; omega
    rw [hfuel]
  · intro maxL simR i n hp hgt
    obtain ⟨hi, -⟩ := pickHigh_get hp
    have hlen : (l.eraseIdx i).length = l.length - 1 :=
      List.length_eraseIdx_of_lt hi
    have hlpos : 1 ≤ l.length := by
      rcases l with _ | _
      · exact absurd rfl hne
      · simp
    unfold moveHighLoop
    rw [moveHighGo, if_pos hgt, hp]
    have hfuel : (l.eraseIdx i).length + 1 = l.length := by
      rw [hlen]; omega
    rw [hfuel]

/-- Witness for C3 (amended) at the tied pair: the pick is the SECOND tied
note (index 1, duration 2). -/
theorem claim_C3_amended_witness :
    ∃ i n, pickLow [tieNoteA, tieNoteB] = some (i, n) ∧
      [tieNoteA, tieNoteB][i]? = some n ∧
      (∀ m ∈ [tieNoteA, tieNoteB], n.midi ≤ m.midi) ∧
      (∀ p ∈ ([tieNoteA, tieNoteB] : List Note).enum, i < p.1 → n.midi < p.2.midi) :=
  (claim_C3_amended [tieNoteA, tieNoteB] (by simp)).1

/-- The first rebalancing loop always succeeds under a nonnegative ceiling. -/
theorem moveLowLoop_ok (maxR : Int) (h0 : 0 ≤ maxR) (simR simL : List Note) :
    ∃ r2 l2, moveLowLoop maxR simR simL = .ok (r2, l2) ∧
      (r2.length : Int) ≤ maxR :=
  moveLowGo_ok (simR.length + 1) maxR simR simL (Nat.lt_succ_self _) h0

/-- The second rebalancing loop always succeeds under a nonnegative ceiling. -/
theorem moveHighLoop_ok (maxL : Int) (h0 : 0 ≤ maxL) (simR simL : List Note) :
    ∃ r2 l2, moveHighLoop maxL simR simL = .ok (r2, l2) ∧
      (l2.length : Int) ≤ maxL :=
  moveHighGo_ok (simL.length + 1) maxL simR simL (Nat.lt_succ_self _) h0

/-- A slice is processed without error under nonnegative ceilings. -/
theorem processSlice_ok (config : Config) (h1 : 0 ≤ config.maxRightHandNotes)
    (h2 : 0 ≤ config.maxLeftHandNotes) (rCopy lCopy : List Note)
    (acc : List Note × List Note) (slice : TimeSlice) :
    ∃ res, processSlice config rCopy lCopy acc slice = .ok res := by
  obtain ⟨r1, l1, he1, -⟩ := moveLowLoop_ok config.maxRightHandNotes h1
    (rCopy.filter (fun n => decide (activeIn n slice.startTime slice.endTime)))
    (lCopy.filter (fun n => decide (activeIn n slice.startTime slice.endTime)))
  obtain ⟨r2, l2, he2, -⟩ := moveHighLoop_ok config.maxLeftHandNotes h2 r1 l1
  simp only [processSlice, he1, he2]
  exact ⟨_, rfl⟩

/-- The slice loop is processed without error under nonnegative ceilings. -/
theorem processSlices_ok (config : Config) (h1 : 0 ≤ config.maxRightHandNotes)
    (h2 : 0 ≤ config.maxLeftHandNotes) (rCopy lCopy : List Note) :
    ∀ (slices : List TimeSlice) (acc : List Note × List Note),
      ∃ res, processSlices config rCopy lCopy slices acc = .ok res
  | [], acc => ⟨acc, rfl⟩
  | s :: rest, acc => by
      unfold processSlices
      obtain ⟨acc2, he⟩ := processSlice_ok config h1 h2 rCopy lCopy acc s
      rw [he]
      exact processSlices_ok config h1 h2 rCopy lCopy rest acc2

/-- C7: a failure adding one individual note is caught, that note is skipped
and every remaining note of both hands is still processed: the emitted MIDI
with a failing note in either hand equals the emitted MIDI without it (first
two conjuncts, for an arbitrary stateful external `addNote`), and under a
stateless fallible `addNote` the output tracks hold exactly the accepted
notes of each hand, in order (third conjunct) — a per-note failure never
aborts the rest of the arrangement, and `generatePianoMidi` is total. -/
theorem claim_C7 :
    (∀ (addNote : AddNote) (header : Header) (left l1 l2 : List Note)
        (bad : Note),
      addNote (emitNotes addNote l1) (normVel bad) = none →
      generatePianoMidi addNote header
          { rightHand := l1 ++ bad :: l2, leftHand := left } =
        generatePianoMidi addNote header
          { rightHand := l1 ++ l2, leftHand := left }) ∧
    (∀ (addNote : AddNote) (header : Header) (right l1 l2 : List Note)
        (bad : Note),
      addNote (emitNotes addNote l1) (normVel bad) = none →
      generatePianoMidi addNote header
          { rightHand := right, leftHand := l1 ++ bad :: l2 } =
        generatePianoMidi addNote header
          { rightHand := right, leftHand := l1 ++ l2 }) ∧
    (∀ (canAdd : Note → Bool) (header : Header) (arr : Arrangement),
      generatePianoMidi (addNoteIf canAdd) header arr =
        { header := header
          tracks := [ ({ name := "Right Hand", instrumentNumber := 0
                         notes := (arr.rightHand.map normVel).filter canAdd } : OutTrack),
                      ({ name := "Left Hand", instrumentNumber := 0
                         notes := (arr.leftHand.map normVel).filter canAdd } : OutTrack) ] }) := by
  refine ⟨?_, ?_, ?_⟩
  · intro addNote header left l1 l2 bad hfail
    unfold generatePianoMidi
    rw [emitNotes_skip addNote l1 l2 bad hfail]
  · intro addNote header right l1 l2 bad hfail
    unfold generatePianoMidi
    rw [emitNotes_skip addNote l1 l2 bad hfail]
  · intro canAdd header arr
    unfold generatePianoMidi
    rw [emitNotes_addNoteIf, emitNotes_addNoteIf]

/-- Witness for C7 at a concrete input: a right hand containing a bad note
between two good ones; the emission equals that of the hand without it. -/
theorem claim_C7_witness :
    generatePianoMidi (addNoteIf reject13) emptyHeader
        { rightHand := [plainNote70] ++ badNote13 :: [plainNote70]
          leftHand := [] } =
      generatePianoMidi (addNoteIf reject13) emptyHeader
        { rightHand := [plainNote70] ++ [plainNote70], leftHand := [] } :=
  claim_C7.1 (addNoteIf reject13) emptyHeader [] [plainNote70] [plainNote70]
    badNote13 (by decide)

/-- C9: after both rebalancing passes of a slice have run, the left hand's
active subset respects its ceiling: any successful run of the left-to-right
pass (the pass that runs last; nothing is added to the left subset
afterwards) ends with at most `maxLeftHandNotes` notes in the left subset
(first conjunct), and with a nonnegative ceiling that pass always completes
(second conjunct).  Only the right-hand ceiling can be re-violated, by the
notes the second pass pushes back. -/
theorem claim_C9 :
    (∀ (maxL : Int) (simR simL r2 l2 : List Note),
      moveHighLoop maxL simR simL = .ok (r2, l2) →
      (l2.length : Int) ≤ maxL) ∧
    (∀ (maxL : Int), 0 ≤ maxL → ∀ (simR simL : List Note),
      ∃ r2 l2, moveHighLoop maxL simR simL = .ok (r2, l2) ∧
        (l2.length : Int) ≤ maxL) := by
  constructor
  · intro maxL simR simL r2 l2 h
    exact moveHighGo_length_le (simL.length + 1) maxL simR simL r2 l2 h
  · intro maxL h0 simR simL
    exact moveHighLoop_ok maxL h0 simR simL

/-- Witness for C9 at a concrete input: ceiling 0 forces the single
left-hand note to move; the final left subset is empty. -/
theorem claim_C9_witness :
    ∃ r2 l2, moveHighLoop 0 [] [plainNote70] = .ok (r2, l2) ∧
      ((l2 : List Note).length : Int) ≤ 0 :=
  claim_C9.2 0 (by decide) [] [plainNote70]

/-- C10: with nonnegative ceilings both rebalancing while-loops terminate
and the embedded reduce is never applied to an empty subset, so the
balancer always returns a result (first conjunct: no error for any input);
for a negative ceiling the guarantee fails — with `maxRightHandNotes = -1`
a single right-hand note drives the first loop to an empty subset whose
reduce throws (second conjunct). -/
theorem claim_C10 :
    (∀ (config : Config) (rightHand leftHand : List Note),
      0 ≤ config.maxRightHandNotes → 0 ≤ config.maxLeftHandNotes →
      ∃ arr, optimizeSimultaneousNotes rightHand leftHand config = .ok arr) ∧
    optimizeSimultaneousNotes [plainNote70] [] cfgRightNeg =
      .error "Reduce of empty array with no initial value" := by
  constructor
  · intro config rightHand leftHand h1 h2
    simp only [optimizeSimultaneousNotes]
    obtain ⟨res, he⟩ := processSlices_ok config h1 h2 rightHand leftHand
      (createTimeSlices (rightHand ++ leftHand)) ([], [])
    rw [he]
    exact ⟨_, rfl⟩
  · norm_num [optimizeSimultaneousNotes, createTimeSlices, processSlices,
      processSlice, moveLowLoop, moveLowGo, moveHighLoop, moveHighGo, pickLow,
      pickHigh, dedupAdd, activeIn, plainNote70, cfgRightNeg,
      List.insertionSort, List.orderedInsert, List.dedup, List.enum,
      List.enumFrom, List.foldl, List.filter, List.zip, List.zipWith]

/-- Witness for C10 at a concrete input: default ceilings (12/10) on the
three-note chord succeed. -/
theorem claim_C10_witness :
    ∃ arr, optimizeSimultaneousNotes
        [ { midi := 70, time := 0, duration := 1, velocity := 64 },
          { midi := 72, time := 0, duration := 1, velocity := 64 },
          { midi := 75, time := 0, duration := 1, velocity := 64 } ] []
        defaultOptions = .ok arr :=
  claim_C10.1 defaultOptions _ [] (by decide) (by decide)

/-- Reading below the length of a prefix-extended store is unchanged. -/
theorem Store.get_of_append {s s2 : Store} {a : Nat}
    (hext : ∃ t, s2.cells = s.cells ++ t) (ha : a < s.cells.length) :
    s2.get a = s.get a := by
  obtain ⟨t, ht⟩ := hext
  unfold Store.get
  rw [ht]
  rw [List.getD_eq_getElem?_getD, List.getD_eq_getElem?_getD,
    List.getElem?_append_left ha]

/-- The deep-copy loop only appends fresh cells to the store. -/
theorem copyNotes_ext : ∀ (addrs : List Nat) (st : Store) (lst : List Nat),
    ∃ t, (addrs.foldl
        (fun acc a =>
          let p := acc.1.alloc (acc.1.get a)
          (p.1, acc.2 ++ [p.2]))
        (st, lst)).1.cells = st.cells ++ t
  | [], st, lst => ⟨[], by simp⟩
  | a :: rest, st, lst => by
      rw [List.foldl_cons]
      obtain ⟨t, ht⟩ := copyNotes_ext rest
        { cells := st.cells ++ [st.get a] } (lst ++ [st.cells.length])
      exact ⟨[st.get a] ++ t, by
        rw [← List.append_assoc]
        exact ht⟩

/-- The merge step only appends fresh cells, and every address it returns is
either an address it was given in `opt` or a freshly allocated one: relative
to a base store, extension and the freshness bound are preserved. -/
theorem dedupAddA_spec (sOrig : Store) :
    ∀ (toAdd : List Nat) (st : Store) (opt : List Nat),
      (∃ t, st.cells = sOrig.cells ++ t) →
      (∀ a ∈ opt, sOrig.cells.length ≤ a) →
      (∃ t, (dedupAddA st opt toAdd).1.cells = sOrig.cells ++ t) ∧
      (∀ a ∈ (dedupAddA st opt toAdd).2, sOrig.cells.length ≤ a)
  | [], st, opt, hext, hopt => ⟨hext, hopt⟩
  | a :: rest, st, opt, hext, hopt => by
      have hcons : dedupAddA st opt (a :: rest) =
          if opt.any (fun b =>
              (st.get b).time = (st.get a).time ∧
                (st.get b).midi = (st.get a).midi) then
            dedupAddA st opt rest
          else
            dedupAddA { cells := st.cells ++ [st.get a] }
              (opt ++ [st.cells.length]) rest := by
        unfold dedupAddA
        rw [List.foldl_cons]
        by_cases hc : opt.any (fun b =>
            (st.get b).time = (st.get a).time ∧
              (st.get b).midi = (st.get a).midi)
        · rw [if_pos hc, if_pos hc]
        · rw [if_neg hc, if_neg hc]
          rfl
      rw [hcons]
      by_cases hc : opt.any (fun b =>
          (st.get b).time = (st.get a).time ∧
            (st.get b).midi = (st.get a).midi)
      · rw [if_pos hc]
        exact dedupAddA_spec sOrig rest st opt hext hopt
      · rw [if_neg hc]
        obtain ⟨t, ht⟩ := hext
        refine dedupAddA_spec sOrig rest _ _ ⟨t ++ [st.get a], by
          simp only [ht, List.append_assoc]⟩ ?_
        intro b hb
        rcases List.mem_append.mp hb with h | h
        · exact hopt b h
        · rw [List.mem_singleton] at h
          subst h
          rw [ht]
          simp

/-- One slice of the store-level balancer preserves extension of the base
store and the freshness bound on the accumulated output addresses (the two
rebalancing loops never touch the store; only the merge step allocates). -/
theorem processSliceA_spec (config : Config) (rCopy lCopy : List Nat)
    (sOrig s : Store) (acc : List Nat × List Nat) (slice : TimeSlice)
    (s2 : Store) (acc2 : List Nat × List Nat)
    (hext : ∃ t, s.cells = sOrig.cells ++ t)
    (hacc : ∀ a ∈ acc.1 ++ acc.2, sOrig.cells.length ≤ a)
    (hrun : processSliceA config rCopy lCopy s acc slice = .ok (s2, acc2)) :
    (∃ t, s2.cells = sOrig.cells ++ t) ∧
    (∀ a ∈ acc2.1 ++ acc2.2, sOrig.cells.length ≤ a) := by
  simp only [processSliceA] at hrun
  rcases h1 : moveLowGoA s
      ((rCopy.filter (fun a =>
        decide (activeIn (s.get a) slice.startTime slice.endTime))).length + 1)
      config.maxRightHandNotes
      (rCopy.filter (fun a =>
        decide (activeIn (s.get a) slice.startTime slice.endTime)))
      (lCopy.filter (fun a =>
        decide (activeIn (s.get a) slice.startTime slice.endTime))) with e | ⟨r1, l1⟩
  · rw [h1] at hrun
    exact absurd hrun (by simp)
  · simp only [h1] at hrun
    rcases h2 : moveHighGoA s (l1.length + 1) config.maxLeftHandNotes r1 l1 with
      e | ⟨r2, l2⟩
    · rw [h2] at hrun
      exact absurd hrun (by simp)
    · simp only [h2] at hrun
      obtain ⟨hs2, hpair⟩ := Prod.ext_iff.mp (Except.ok.inj hrun)
      have hs2b : (dedupAddA (dedupAddA s acc.1 r2).1 acc.2 l2).1 = s2 := hs2
      have hpairb : ((dedupAddA s acc.1 r2).2,
          (dedupAddA (dedupAddA s acc.1 r2).1 acc.2 l2).2) = acc2 := hpair
      have hq1 := dedupAddA_spec sOrig r2 s acc.1
        hext (fun a ha => hacc a (List.mem_append.mpr (Or.inl ha)))
      have hq2 := dedupAddA_spec sOrig l2 (dedupAddA s acc.1 r2).1 acc.2
        hq1.1 (fun a ha => hacc a (List.mem_append.mpr (Or.inr ha)))
      refine ⟨by rw [← hs2b]; exact hq2.1, ?_⟩
      intro a ha
      rw [← hpairb] at ha
      rcases List.mem_append.mp ha with h | h
      · exact hq1.2 a h
      · exact hq2.2 a h

/-- The store-level slice loop preserves extension and freshness. -/
theorem processSlicesA_spec (config : Config) (rCopy lCopy : List Nat)
    (sOrig : Store) :
    ∀ (slices : List TimeSlice) (s : Store) (acc : List Nat × List Nat)
      (s2 : Store) (acc2 : List Nat × List Nat),
      (∃ t, s.cells = sOrig.cells ++ t) →
      (∀ a ∈ acc.1 ++ acc.2, sOrig.cells.length ≤ a) →
      processSlicesA config rCopy lCopy slices s acc = .ok (s2, acc2) →
      (∃ t, s2.cells = sOrig.cells ++ t) ∧
      (∀ a ∈ acc2.1 ++ acc2.2, sOrig.cells.length ≤ a)
  | [], s, acc, s2, acc2, hext, hacc, hrun => by
      simp only [processSlicesA] at hrun
      simp only [Except.ok.injEq, Prod.mk.injEq] at hrun
      obtain ⟨h1, h2⟩ := hrun
      subst h1
      subst h2
      exact ⟨hext, hacc⟩
  | slice :: rest, s, acc, s2, acc2, hext, hacc, hrun => by
      simp only [processSlicesA] at hrun
      rcases h1 : processSliceA config rCopy lCopy s acc slice with e | r
      · rw [h1] at hrun
        exact absurd hrun (by simp)
      · simp only [h1] at hrun
        obtain ⟨hext2, hacc2⟩ := processSliceA_spec config rCopy lCopy
          sOrig s acc slice r.1 r.2 hext hacc h1
        exact processSlicesA_spec config rCopy lCopy sOrig rest r.1 r.2 s2 acc2
          hext2 hacc2 hrun

/-- C8: the balancer never mutates its inputs and returns freshly
constructed sequences.  In the store embedding (every `{...note}` of the
source is an allocation, every field access a read, and the hand arrays are
address lists that the source only reads), a successful run only appends to
the store: every pre-existing note object is unchanged afterwards, and every
address in the returned optimized lists is fresh — allocated during the
call, never aliasing an input note object.  The input address lists
themselves are pure values here because the source never writes to the
input arrays. -/
theorem claim_C8 (s : Store) (rightHand leftHand : List Nat) (config : Config)
    (s2 : Store) (optR optL : List Nat)
    (hrun : optimizeSimultaneousNotesA s rightHand leftHand config =
      .ok (s2, (optR, optL))) :
    (∃ t, s2.cells = s.cells ++ t) ∧
    (∀ a, a < s.cells.length → s2.get a = s.get a) ∧
    (∀ a ∈ optR ++ optL, s.cells.length ≤ a) := by
  simp only [optimizeSimultaneousNotesA] at hrun
  have hc1 : ∃ t, (copyNotes s rightHand).1.cells = s.cells ++ t :=
    copyNotes_ext rightHand s []
  have hc2 : ∃ t2, (copyNotes (copyNotes s rightHand).1 leftHand).1.cells =
      (copyNotes s rightHand).1.cells ++ t2 :=
    copyNotes_ext leftHand (copyNotes s rightHand).1 []
  have hcc : ∃ t, (copyNotes (copyNotes s rightHand).1 leftHand).1.cells =
      s.cells ++ t := by
    obtain ⟨t1, h1⟩ := hc1
    obtain ⟨t2, h2⟩ := hc2
    exact ⟨t1 ++ t2, by rw [h2, h1, List.append_assoc]⟩
  obtain ⟨hext, hfresh⟩ := processSlicesA_spec config
    (copyNotes s rightHand).2 (copyNotes (copyNotes s rightHand).1 leftHand).2 s
    (createTimeSlices
      (((copyNotes s rightHand).2 ++
          (copyNotes (copyNotes s rightHand).1 leftHand).2).map
        (copyNotes (copyNotes s rightHand).1 leftHand).1.get))
    (copyNotes (copyNotes s rightHand).1 leftHand).1 ([], [])
    s2 (optR, optL) hcc (by simp) hrun
  exact ⟨hext, fun a ha => Store.get_of_append hext ha, hfresh⟩

/-- Witness for C8 at a concrete input: a store holding the tied pair, the
right hand owning both addresses. -/
theorem claim_C8_witness :
    ∃ res, optimizeSimultaneousNotesA { cells := [tieNoteA, tieNoteB] }
        [0, 1] [] cfgRight1 = .ok res ∧
      (∃ t, res.1.cells = [tieNoteA, tieNoteB] ++ t) ∧
      (∀ a ∈ res.2.1 ++ res.2.2, 2 ≤ a) := by
  rcases hrun : optimizeSimultaneousNotesA { cells := [tieNoteA, tieNoteB] }
      [0, 1] [] cfgRight1 with e | ⟨s2, optR, optL⟩
  · exact absurd hrun (by
      norm_num [optimizeSimultaneousNotesA, copyNotes, Store.alloc, Store.get,
        createTimeSlices, processSlicesA, processSliceA, moveLowGoA, moveHighGoA,
        pickLowA, pickHighA, pickLow, pickHigh, dedupAddA, activeIn,
        tieNoteA, tieNoteB, cfgRight1, List.insertionSort, List.orderedInsert,
        List.dedup, List.enum, List.enumFrom, List.foldl, List.filter,
        List.zip, List.zipWith]
      intro hcon
      exact Except.noConfusion hcon)
  · obtain ⟨hext, -, hfresh⟩ := claim_C8 { cells := [tieNoteA, tieNoteB] }
      [0, 1] [] cfgRight1 s2 optR optL hrun
    refine ⟨(s2, optR, optL), rfl, hext, ?_⟩
    intro a ha
    have := hfresh a ha
    simpa using this

end PianoMidi
